import Mathlib

/-!
SmartRangeT: the range reductions of OpenMesh.

Shallow embedding of `src/OpenMesh/Core/Mesh/SmartRange.hh`.

* A range (`RangeT`, iterated from `begin()` to `end()`) is the list of the
  handles it yields, in iteration order.
* A functor (`Functor&& f`) is a callable that may carry state: it is embedded
  in state-passing style as `H → σ → R × σ`.  A pure mapping function is the
  special case `pure_call f`, which leaves the state alone; `logged_call f`
  records every handle it is applied to.
* Every operation returns its result together with the functor state it
  leaves; the asserting operations return an `Outcome`.
  `assert(begin != end)` failing (in a build where `assert` is active) and an
  indexed access outside the mapped value are explicit outcomes.  After such
  an access the loops go on, as the source has no check and no exit: the
  functor is still applied to the rest of the range, only the returned value
  is no longer determined.
* Indexable mapped values (`min[i]`, `tmp[i]`) are lists of components with
  total, `Option`-returning indexing.
* `std::array<T, n> res;` is declared without initialiser: its slots are
  modelled as `Option T`, `none` meaning "never assigned"; `read_array` gives
  what a caller reads from such an array, a slot that was never assigned
  showing what its storage held before the call.
* `avg` scales by `1.0 / n_elements`; the reciprocal is taken in exact rational
  arithmetic.
-/

namespace OpenMesh

/-- How a call of one of the asserting operations ends: with a returned value,
with the assertion `assert(begin != end)` failing, or after an indexed access
`x[i]` outside the bounds of `x`.  The source does not check such an access:
the call runs on to its `return`, but what it has read, and so what it returns,
is not determined by the program; `out_of_bounds` stands for that. -/
inductive Outcome (α : Type) where
  | value (a : α)
  | assert_failed
  | out_of_bounds
deriving DecidableEq

/-- The functor `Identity`: `T operator()(const T& _t) const { return _t; }`. -/
def Identity {T : Type} (_t : T) : T := _t

/-- A pure mapping function seen as a functor: the state is left unchanged. -/
def pure_call {H R σ : Type} (f : H → R) : H → σ → R × σ :=
  fun h s => (f h, s)

/-- A mapping function that appends the handle it is applied to to a log. -/
def logged_call {H R : Type} (f : H → R) : H → List H → R × List H :=
  fun h log => (f h, log ++ [h])

/-- The loop `for (; it != end; ++it) sum += f(*it);` of `sum`:
`it` is the part of the range not visited yet, and `sum += v` is `sum + v`. -/
def sum_loop {H R σ : Type} [Add R] (f : H → σ → R × σ) : List H → R → σ → R × σ
  | [], sum, s => (sum, s)
  | h :: it, sum, s =>
    let r := f h s
    sum_loop f it (sum + r.1) r.2

/-- The operation `SmartRangeT::sum`. -/
def sum {H R σ : Type} [Add R] (range : List H) (f : H → σ → R × σ) (s : σ) :
    Outcome R × σ :=
  match range with
  | [] => (Outcome.assert_failed, s)
  | h :: it =>
    let r := f h s
    let l := sum_loop f it r.1 r.2
    (Outcome.value l.1, l.2)

/-- The loop of `avg`: `for (; it != end; ++it) { sum += f(*it); ++n_elements; }`.
It returns the running sum and the counter `n_elements`.  The counter is a
C++ `int`; it is embedded as an unbounded integer, since it only overflows
(undefined behaviour) on a range of more than `INT_MAX` elements. -/
def avg_loop {H R σ : Type} [Add R] (f : H → σ → R × σ) :
    List H → R → Int → σ → (R × Int) × σ
  | [], sum, n_elements, s => ((sum, n_elements), s)
  | h :: it, sum, n_elements, s =>
    let r := f h s
    avg_loop f it (sum + r.1) (n_elements + 1) r.2

/-- The operation `SmartRangeT::avg`: `return (1.0 / n_elements) * sum;`.
The product of the scale factor with a sum of type `R` has type `A`
(`decltype (1.0 * (f(h) + f(h)))`). -/
def avg {H R A σ : Type} [Add R] [HMul ℚ R A] (range : List H) (f : H → σ → R × σ) (s : σ) :
    Outcome A × σ :=
  match range with
  | [] => (Outcome.assert_failed, s)
  | h :: it =>
    let r := f h s
    let l := avg_loop f it r.1 1 r.2
    (Outcome.value (((1 : ℚ) / (l.1.2 : ℚ)) * l.1.1), l.2)

/-- The loop `while (i < n && it != end) res[i++] = f(*(it++));` of `to_array`.
Both tests of the loop condition are free of effects, so the order in which
they are made does not show. -/
def to_array_loop {H R σ : Type} (n : Nat) (f : H → σ → R × σ) :
    List H → Nat → List (Option R) → σ → List (Option R) × σ
  | [], _, res, s => (res, s)
  | h :: it, i, res, s =>
    if i < n then
      let r := f h s
      to_array_loop n f it (i + 1) (res.set i (some r.1)) r.2
    else (res, s)

/-- The operation `SmartRangeT::to_array<n>`: `res` starts as `n` slots that
were never assigned. -/
def to_array {H R σ : Type} (n : Nat) (range : List H) (f : H → σ → R × σ) (s : σ) :
    List (Option R) × σ :=
  to_array_loop n f range 0 (List.replicate n none) s

/-- The loop `for (auto e : *range) res.push_back(f(e));` of `to_vector`. -/
def to_vector_loop {H R σ : Type} (f : H → σ → R × σ) :
    List H → List R → σ → List R × σ
  | [], res, s => (res, s)
  | e :: it, res, s =>
    let r := f e s
    to_vector_loop f it (res ++ [r.1]) r.2

/-- The operation `SmartRangeT::to_vector`. -/
def to_vector {H R σ : Type} (range : List H) (f : H → σ → R × σ) (s : σ) : List R × σ :=
  to_vector_loop f range [] s

/-- What is left of an outer loop of `elem_wise_min` or `elem_wise_max` once an
indexed access has gone outside its sequence.  The source has no check and no
exit there, so `for (; it != end; ++it)` still runs over the rest of the range
and `f(*it)` is still called on each element; what the accesses read from then
on is not determined, so only the functor state is followed. -/
def apply_rest {H R σ : Type} (f : H → σ → R × σ) : List H → σ → σ
  | [], s => s
  | h :: it, s => apply_rest f it (f h s).2

/-- The library function `std::min(a, b)`, which is `(b < a) ? b : a`. -/
def std_min {α : Type} [LT α] [DecidableRel (α := α) (· < ·)] (a b : α) : α :=
  if b < a then b else a

/-- The library function `std::max(a, b)`, which is `(a < b) ? b : a`. -/
def std_max {α : Type} [LT α] [DecidableRel (α := α) (· < ·)] (a b : α) : α :=
  if a < b then b else a

/-- The inner loop `for (int i = 0; i < n; ++i) min[i] = std::min(min[i], tmp[i]);`
of `elem_wise_min`.  The first argument is the number `n - i` of iterations
still to run; `none` is returned as soon as `min[i]` or `tmp[i]` is outside its
sequence. -/
def min_inner {α : Type} [LT α] [DecidableRel (α := α) (· < ·)] (tmp : List α) :
    Nat → Nat → List α → Option (List α)
  | 0, _, min => some min
  | k + 1, i, min =>
    match min[i]?, tmp[i]? with
    | some a, some b => min_inner tmp k (i + 1) (min.set i (std_min a b))
    | _, _ => none

/-- The outer loop `for (; it != end; ++it) { const auto& tmp = f(*it); ... }`
of `elem_wise_min`. -/
def min_loop {H α σ : Type} [LT α] [DecidableRel (α := α) (· < ·)] (n : Nat)
    (f : H → σ → List α × σ) : List H → List α → σ → Outcome (List α) × σ
  | [], min, s => (Outcome.value min, s)
  | h :: it, min, s =>
    let r := f h s
    match min_inner r.1 n 0 min with
    | some min1 => min_loop n f it min1 r.2
    | none => (Outcome.out_of_bounds, apply_rest f it r.2)

/-- The operation `SmartRangeT::elem_wise_min<n>`.  A template argument
`n ≤ 0` runs the inner loop zero times, like `n = 0`. -/
def elem_wise_min {H α σ : Type} [LT α] [DecidableRel (α := α) (· < ·)] (n : Nat)
    (range : List H) (f : H → σ → List α × σ) (s : σ) : Outcome (List α) × σ :=
  match range with
  | [] => (Outcome.assert_failed, s)
  | h :: it =>
    let r := f h s
    min_loop n f it r.1 r.2

/-- The inner loop `for (int i = 0; i < n; ++i) max[i] = std::max(max[i], tmp[i]);`
of `elem_wise_max`, with the number of iterations still to run as first
argument. -/
def max_inner {α : Type} [LT α] [DecidableRel (α := α) (· < ·)] (tmp : List α) :
    Nat → Nat → List α → Option (List α)
  | 0, _, max => some max
  | k + 1, i, max =>
    match max[i]?, tmp[i]? with
    | some a, some b => max_inner tmp k (i + 1) (max.set i (std_max a b))
    | _, _ => none

/-- The outer loop of `elem_wise_max`. -/
def max_loop {H α σ : Type} [LT α] [DecidableRel (α := α) (· < ·)] (n : Nat)
    (f : H → σ → List α × σ) : List H → List α → σ → Outcome (List α) × σ
  | [], max, s => (Outcome.value max, s)
  | h :: it, max, s =>
    let r := f h s
    match max_inner r.1 n 0 max with
    | some max1 => max_loop n f it max1 r.2
    | none => (Outcome.out_of_bounds, apply_rest f it r.2)

/-- The operation `SmartRangeT::elem_wise_max<n>`. -/
def elem_wise_max {H α σ : Type} [LT α] [DecidableRel (α := α) (· < ·)] (n : Nat)
    (range : List H) (f : H → σ → List α × σ) (s : σ) : Outcome (List α) × σ :=
  match range with
  | [] => (Outcome.assert_failed, s)
  | h :: it =>
    let r := f h s
    max_loop n f it r.1 r.2

/-- Proof device: the common shape of the two inner loops `min_inner` and
`max_inner`, with the combining function as a parameter. -/
def comb_inner {α : Type} (g : α → α → α) (tmp : List α) :
    Nat → Nat → List α → Option (List α)
  | 0, _, acc => some acc
  | k + 1, i, acc =>
    match acc[i]?, tmp[i]? with
    | some a, some b => comb_inner g tmp k (i + 1) (acc.set i (g a b))
    | _, _ => none

/-- Proof device: the common shape of the two outer loops `min_loop` and
`max_loop`. -/
def comb_loop {H α σ : Type} (g : α → α → α) (n : Nat) (f : H → σ → List α × σ) :
    List H → List α → σ → Outcome (List α) × σ
  | [], acc, s => (Outcome.value acc, s)
  | h :: it, acc, s =>
    let r := f h s
    match comb_inner g r.1 n 0 acc with
    | some acc1 => comb_loop g n f it acc1 r.2
    | none => (Outcome.out_of_bounds, apply_rest f it r.2)

/-- The call `to_vector()` with the argument omitted: `typename Functor = Identity`,
`Functor&& f = {}`. -/
def to_vector_default {H σ : Type} (range : List H) (s : σ) : List H × σ :=
  to_vector range (pure_call Identity) s

/-- The call `to_array<n>()` with the argument omitted: `typename Functor = Identity`,
`Functor&& f = {}`. -/
def to_array_default {H σ : Type} (n : Nat) (range : List H) (s : σ) :
    List (Option H) × σ :=
  to_array n range (pure_call Identity) s

/-! ## Theorems -/

theorem sum_loop_pure_call {H R σ : Type} [Add R] (f : H → R) (it : List H) (acc : R) (s : σ) :
    sum_loop (pure_call f) it acc s = (it.foldl (fun a h => a + f h) acc, s) := by
  induction it generalizing acc with
  | nil => rfl
  | cons h t ih => simp [sum_loop, pure_call, ih]

/-- C1: on a non-empty range `h0 :: rest`, `sum` returns the sequential left
fold that starts from `f h0` and adds the mapped values of the remaining
handles in iteration order, using nothing about `+` but the operation itself;
the mapped values 3, 1, 4, 1, 5 sum to 14. -/
theorem sum_eq_left_fold :
    (∀ (H R σ : Type) [Add R] (f : H → R) (h0 : H) (rest : List H) (s : σ),
      sum (h0 :: rest) (pure_call f) s
        = (Outcome.value (List.foldl (fun acc v => acc + v) (f h0) (List.map f rest)), s))
    ∧ sum [3, 1, 4, 1, 5] (pure_call (fun (h : Int) => h)) () = (Outcome.value 14, ()) := by
  refine ⟨?_, by decide⟩
  intro H R σ _ f h0 rest s
  simp [sum, sum_loop_pure_call, pure_call, List.foldl_map]

theorem avg_loop_pure_call {H R σ : Type} [Add R] (f : H → R) (it : List H) (acc : R)
    (k : Int) (s : σ) :
    avg_loop (pure_call f) it acc k s
      = ((it.foldl (fun a h => a + f h) acc, k + (it.length : Int)), s) := by
  induction it generalizing acc k with
  | nil => simp [avg_loop]
  | cons h t ih =>
    simp only [avg_loop, pure_call, List.foldl_cons, List.length_cons] at ih ⊢
    rw [ih]
    simp only [Nat.cast_add, Nat.cast_one, Prod.mk.injEq, and_true, true_and]
    ring

/-- C2: on a non-empty range `h0 :: rest`, the loop of `avg` ends with the
running sum equal to the value `sum` returns and with the counter equal to the
number of elements of the range, and `avg` returns that sum multiplied by the
exact reciprocal of the number of elements. -/
theorem avg_eq_sum_times_reciprocal (H R A σ : Type) [Add R] [HMul ℚ R A] (f : H → R)
    (h0 : H) (rest : List H) (s : σ) :
    ∃ total : R,
      sum (h0 :: rest) (pure_call f) s = (Outcome.value total, s)
      ∧ avg_loop (pure_call f) rest (f h0) 1 s
          = ((total, ((h0 :: rest).length : Int)), s)
      ∧ avg (h0 :: rest) (pure_call f) s
          = (Outcome.value (((1 : ℚ) / ((h0 :: rest).length : ℚ)) * total), s) := by
  refine ⟨rest.foldl (fun a h => a + f h) (f h0), ?_, ?_, ?_⟩
  · simp [sum, sum_loop_pure_call, pure_call]
  · rw [avg_loop_pure_call]
    simp [add_comm]
  · simp only [avg, pure_call]
    have h := avg_loop_pure_call (σ := σ) f rest (f h0) 1 s
    simp only [pure_call] at h
    rw [h]
    simp [add_comm]

theorem to_vector_loop_pure_call {H R σ : Type} (f : H → R) (it : List H) (res : List R)
    (s : σ) :
    to_vector_loop (pure_call f) it res s = (res ++ it.map f, s) := by
  induction it generalizing res with
  | nil => simp [to_vector_loop]
  | cons h t ih => simp [to_vector_loop, pure_call, ih]

/-- C3: for every range, the empty one included, `to_vector` returns the list
map of `f` over the range in iteration order: its length is the number of
elements of the range, its element `i` is `f` of the element `i` of the range,
and the empty range gives the empty sequence. -/
theorem to_vector_eq_map (H R σ : Type) (f : H → R) (range : List H) (s : σ) :
    to_vector range (pure_call f) s = (List.map f range, s)
    ∧ (to_vector range (pure_call f) s).1.length = range.length
    ∧ (∀ i : Nat, i < range.length →
        (to_vector range (pure_call f) s).1[i]? = Option.map f range[i]?
        ∧ ∃ h, range[i]? = some h ∧ (to_vector range (pure_call f) s).1[i]? = some (f h))
    ∧ to_vector ([] : List H) (pure_call f) s = ([], s) := by
  have key : to_vector range (pure_call f) s = (List.map f range, s) := by
    simp [to_vector, to_vector_loop_pure_call]
  refine ⟨key, by simp [key], ?_, by simp [to_vector, to_vector_loop]⟩
  intro i hi
  rw [key]
  refine ⟨by simp, range[i], by simp [hi], by simp [hi]⟩

/-- C3, at a concrete input: a 3-element range, element 2. -/
theorem to_vector_eq_map_witness :
    2 < [7, 8, 9].length
    ∧ (to_vector [7, 8, 9] (pure_call (fun (h : Nat) => h + 1)) ()).1[2]?
        = Option.map (fun (h : Nat) => h + 1) [7, 8, 9][2]?
    ∧ ∃ h, [7, 8, 9][2]? = some h
        ∧ (to_vector [7, 8, 9] (pure_call (fun (h : Nat) => h + 1)) ()).1[2]? = some (h + 1) :=
  ⟨by decide,
    (to_vector_eq_map Nat Nat Unit (fun (h : Nat) => h + 1) [7, 8, 9] ()).2.2.1 2 (by decide)⟩

theorem min_inner_eq_comb {α : Type} [LT α] [DecidableRel (α := α) (· < ·)] (tmp : List α)
    (k i : Nat) (acc : List α) :
    min_inner tmp k i acc = comb_inner std_min tmp k i acc := by
  induction k generalizing i acc with
  | zero => rfl
  | succ k ih =>
    simp only [min_inner, comb_inner]
    split <;> simp [ih]

theorem max_inner_eq_comb {α : Type} [LT α] [DecidableRel (α := α) (· < ·)] (tmp : List α)
    (k i : Nat) (acc : List α) :
    max_inner tmp k i acc = comb_inner std_max tmp k i acc := by
  induction k generalizing i acc with
  | zero => rfl
  | succ k ih =>
    simp only [max_inner, comb_inner]
    split <;> simp [ih]

theorem min_loop_eq_comb {H α σ : Type} [LT α] [DecidableRel (α := α) (· < ·)] (n : Nat)
    (f : H → σ → List α × σ) (it : List H) (acc : List α) (s : σ) :
    min_loop n f it acc s = comb_loop std_min n f it acc s := by
  induction it generalizing acc s with
  | nil => rfl
  | cons h t ih =>
    simp only [min_loop, comb_loop, min_inner_eq_comb]
    split <;> simp [ih]

theorem max_loop_eq_comb {H α σ : Type} [LT α] [DecidableRel (α := α) (· < ·)] (n : Nat)
    (f : H → σ → List α × σ) (it : List H) (acc : List α) (s : σ) :
    max_loop n f it acc s = comb_loop std_max n f it acc s := by
  induction it generalizing acc s with
  | nil => rfl
  | cons h t ih =>
    simp only [max_loop, comb_loop, max_inner_eq_comb]
    split <;> simp [ih]

/-- When the indices `i, …, i + k - 1` lie inside both sequences, the inner
loop ends normally, keeps the length, combines exactly those components and
leaves every other component alone. -/
theorem comb_inner_spec {α : Type} (g : α → α → α) (tmp : List α) (k i : Nat) (acc : List α)
    (hacc : i + k ≤ acc.length) (htmp : i + k ≤ tmp.length) :
    ∃ res, comb_inner g tmp k i acc = some res ∧ res.length = acc.length
      ∧ (∀ j, (j < i ∨ i + k ≤ j) → res[j]? = acc[j]?)
      ∧ (∀ j, i ≤ j → j < i + k →
          ∃ a b, acc[j]? = some a ∧ tmp[j]? = some b ∧ res[j]? = some (g a b)) := by
  induction k generalizing i acc with
  | zero =>
    refine ⟨acc, rfl, rfl, fun _ _ => rfl, ?_⟩
    intro j h1 h2
    omega
  | succ k ih =>
    have hi : i < acc.length := by omega
    have hi2 : i < tmp.length := by omega
    obtain ⟨res, hres, hlen, hout, hin⟩ :=
      ih (i + 1) (acc.set i (g acc[i] tmp[i])) (by simp; omega) (by omega)
    refine ⟨res, ?_, by simpa using hlen, ?_, ?_⟩
    · simp only [comb_inner, List.getElem?_eq_getElem hi, List.getElem?_eq_getElem hi2]
      exact hres
    · intro j hj
      rw [hout j (by omega)]
      exact List.getElem?_set_ne (by omega)
    · intro j h1 h2
      by_cases hji : j = i
      · subst hji
        refine ⟨acc[j], tmp[j], List.getElem?_eq_getElem hi, List.getElem?_eq_getElem hi2, ?_⟩
        rw [hout j (by omega)]
        exact List.getElem?_set_self hi
      · obtain ⟨a, b, ha, hb, hr⟩ := hin j (by omega) (by omega)
        rw [List.getElem?_set_ne (by omega)] at ha
        exact ⟨a, b, ha, hb, hr⟩

/-- The outer loop on a pure mapping function whose values all have at least
`n` components: it ends normally with the state untouched, keeps the length of
the accumulator, leaves the components from `n` on alone, and component
`j < n` is the left fold of `g` down column `j`. -/
theorem comb_loop_spec {H α σ : Type} (g : α → α → α) (n : Nat) (f : H → List α)
    (it : List H) (acc : List α) (s : σ)
    (hacc : n ≤ acc.length) (hf : ∀ h ∈ it, n ≤ (f h).length) :
    ∃ res, comb_loop g n (pure_call f) it acc s = (Outcome.value res, s)
      ∧ res.length = acc.length
      ∧ (∀ j, n ≤ j → res[j]? = acc[j]?)
      ∧ (∀ j, j < n → ∃ a, acc[j]? = some a
          ∧ res[j]? = some (it.foldl (fun x h => g x ((f h).getD j a)) a)) := by
  induction it generalizing acc with
  | nil =>
    refine ⟨acc, rfl, rfl, fun _ _ => rfl, ?_⟩
    intro j hj
    exact ⟨acc[j], List.getElem?_eq_getElem (by omega), by simp⟩
  | cons h t ih =>
    obtain ⟨acc1, h1, hlen1, hout1, hin1⟩ :=
      comb_inner_spec g (f h) n 0 acc (by omega) (by simpa using hf h (by simp))
    obtain ⟨res, hres, hlen, hout, hin⟩ :=
      ih acc1 (by omega) (fun x hx => hf x (by simp [hx]))
    refine ⟨res, ?_, by omega, ?_, ?_⟩
    · simp only [comb_loop, pure_call, h1]
      exact hres
    · intro j hj
      rw [hout j hj, hout1 j (by omega)]
    · intro j hj
      obtain ⟨a, b, ha, hb, hr⟩ := hin1 j (by omega) (by omega)
      obtain ⟨a1, ha1, hr1⟩ := hin j hj
      rw [hr] at ha1
      cases ha1
      refine ⟨a, ha, ?_⟩
      rw [hr1, List.foldl_cons]
      have hb2 : (f h).getD j a = b := by
        simp [List.getD_eq_getElem?_getD, hb]
      rw [hb2]
      -- the default of `getD` is never used: every column entry exists
      congr 1
      apply List.foldl_ext
      intro x y hy
      have hy2 : j < (f y).length := lt_of_lt_of_le hj (hf y (by simp [hy]))
      simp [List.getD_eq_getElem?_getD, List.getElem?_eq_getElem hy2]

theorem std_min_eq_min {α : Type} [LinearOrder α] (a b : α) : std_min a b = min a b := by
  unfold std_min
  split_ifs with h
  · exact (min_eq_right h.le).symm
  · exact (min_eq_left (not_lt.mp h)).symm

theorem std_max_eq_max {α : Type} [LinearOrder α] (a b : α) : std_max a b = max a b := by
  unfold std_max
  split_ifs with h
  · exact (max_eq_right h.le).symm
  · exact (max_eq_left (not_lt.mp h)).symm

/-- Folding `std_min` down a column gives a lower bound of the start value and
of every entry, and the result is one of them. -/
theorem foldl_std_min_spec {H α : Type} [LinearOrder α] (c : H → α) (it : List H) (a : α) :
    it.foldl (fun x h => std_min x (c h)) a ≤ a
    ∧ (∀ h ∈ it, it.foldl (fun x h => std_min x (c h)) a ≤ c h)
    ∧ (it.foldl (fun x h => std_min x (c h)) a = a
        ∨ ∃ h ∈ it, it.foldl (fun x h => std_min x (c h)) a = c h) := by
  induction it generalizing a with
  | nil => simp
  | cons h t ih =>
    obtain ⟨h1, h2, h3⟩ := ih (std_min a (c h))
    simp only [List.foldl_cons, List.mem_cons, forall_eq_or_imp, exists_eq_or_imp]
    rw [std_min_eq_min] at h1 h2 h3 ⊢
    refine ⟨h1.trans (min_le_left _ _), ⟨h1.trans (min_le_right _ _), h2⟩, ?_⟩
    rcases h3 with h3 | h3
    · rcases min_choice a (c h) with hc | hc
      · left; rw [h3, hc]
      · right; left; rw [h3, hc]
    · right; right; exact h3

/-- Folding `std_max` down a column gives an upper bound of the start value and
of every entry, and the result is one of them. -/
theorem foldl_std_max_spec {H α : Type} [LinearOrder α] (c : H → α) (it : List H) (a : α) :
    a ≤ it.foldl (fun x h => std_max x (c h)) a
    ∧ (∀ h ∈ it, c h ≤ it.foldl (fun x h => std_max x (c h)) a)
    ∧ (it.foldl (fun x h => std_max x (c h)) a = a
        ∨ ∃ h ∈ it, it.foldl (fun x h => std_max x (c h)) a = c h) := by
  induction it generalizing a with
  | nil => simp
  | cons h t ih =>
    obtain ⟨h1, h2, h3⟩ := ih (std_max a (c h))
    simp only [List.foldl_cons, List.mem_cons, forall_eq_or_imp, exists_eq_or_imp]
    rw [std_max_eq_max] at h1 h2 h3 ⊢
    refine ⟨(le_max_left _ _).trans h1, ⟨(le_max_right _ _).trans h1, h2⟩, ?_⟩
    rcases h3 with h3 | h3
    · rcases max_choice a (c h) with hc | hc
      · left; rw [h3, hc]
      · right; left; rw [h3, hc]
    · right; right; exact h3

/-- C4: on a non-empty range whose mapped values all have at least `N`
components over a linear order, `elem_wise_min<N>` returns a value whose
component `k < N` is the minimum of the `k`-th components of the mapped values:
it is below the `k`-th component of every mapped value and is the `k`-th
component of some mapped value.  The 2-vectors (1,5), (3,2), (0,9) give (0,2). -/
theorem elem_wise_min_is_componentwise_min :
    (∀ (H α σ : Type) [LinearOrder α] (N : Nat) (f : H → List α) (range : List H) (s : σ),
      range ≠ [] → (∀ h ∈ range, N ≤ (f h).length) →
      ∃ res, elem_wise_min N range (pure_call f) s = (Outcome.value res, s)
        ∧ ∀ k, k < N → ∃ x, res[k]? = some x
            ∧ (∀ h ∈ range, ∃ y, (f h)[k]? = some y ∧ x ≤ y)
            ∧ (∃ h ∈ range, (f h)[k]? = some x))
    ∧ elem_wise_min 2 [0, 1, 2]
        (pure_call (fun (h : Nat) => [[1, 5], [3, 2], [0, 9]].getD h ([] : List Int))) ()
        = (Outcome.value [0, 2], ()) := by
  refine ⟨?_, by decide⟩
  intro H α σ _ N f range s hne hf
  cases range with
  | nil => exact absurd rfl hne
  | cons h0 rest =>
    obtain ⟨res, hres, -, -, hin⟩ := comb_loop_spec std_min N f rest (f h0) s
      (hf h0 (by simp)) (fun h hh => hf h (by simp [hh]))
    refine ⟨res, ?_, ?_⟩
    · simp only [elem_wise_min, pure_call, min_loop_eq_comb]
      exact hres
    · intro k hk
      obtain ⟨a, ha, hr⟩ := hin k hk
      obtain ⟨h1, h2, h3⟩ := foldl_std_min_spec (fun h => (f h).getD k a) rest a
      have hget : ∀ h ∈ rest, (f h)[k]? = some ((f h).getD k a) := by
        intro h hh
        have hlt : k < (f h).length := lt_of_lt_of_le hk (hf h (by simp [hh]))
        simp [List.getD_eq_getElem?_getD, List.getElem?_eq_getElem hlt]
      refine ⟨_, hr, ?_, ?_⟩
      · intro h hh
        rcases List.mem_cons.mp hh with rfl | hh
        · exact ⟨a, ha, h1⟩
        · exact ⟨_, hget h hh, h2 h hh⟩
      · rcases h3 with h3 | ⟨h, hh, h3⟩
        · exact ⟨h0, by simp, by rw [h3]; exact ha⟩
        · exact ⟨h, by simp [hh], by rw [h3]; exact hget h hh⟩

/-- C4, at a concrete input: three handles mapped to (1,5), (3,2), (0,9). -/
theorem elem_wise_min_is_componentwise_min_witness :
    ([0, 1, 2] : List Nat) ≠ []
    ∧ (∀ h ∈ [0, 1, 2], 2 ≤ ([[1, 5], [3, 2], [0, 9]].getD h ([] : List Int)).length)
    ∧ ∃ res, elem_wise_min 2 [0, 1, 2]
        (pure_call (fun (h : Nat) => [[1, 5], [3, 2], [0, 9]].getD h ([] : List Int))) ()
        = (Outcome.value res, ())
      ∧ ∀ k, k < 2 → ∃ x, res[k]? = some x
          ∧ (∀ h ∈ [0, 1, 2], ∃ y,
              ([[1, 5], [3, 2], [0, 9]].getD h ([] : List Int))[k]? = some y ∧ x ≤ y)
          ∧ (∃ h ∈ [0, 1, 2], ([[1, 5], [3, 2], [0, 9]].getD h ([] : List Int))[k]? = some x) :=
  ⟨by decide, by decide,
    elem_wise_min_is_componentwise_min.1 Nat Int Unit 2
      (fun (h : Nat) => [[1, 5], [3, 2], [0, 9]].getD h ([] : List Int)) [0, 1, 2] ()
      (by decide) (by decide)⟩

/-- C5: on a non-empty range whose mapped values all have at least `N`
components over a linear order, `elem_wise_max<N>` returns a value whose
component `k < N` is the maximum of the `k`-th components of the mapped values:
it is above the `k`-th component of every mapped value and is the `k`-th
component of some mapped value.  The 2-vectors (1,5), (3,2), (0,9) give (3,9). -/
theorem elem_wise_max_is_componentwise_max :
    (∀ (H α σ : Type) [LinearOrder α] (N : Nat) (f : H → List α) (range : List H) (s : σ),
      range ≠ [] → (∀ h ∈ range, N ≤ (f h).length) →
      ∃ res, elem_wise_max N range (pure_call f) s = (Outcome.value res, s)
        ∧ ∀ k, k < N → ∃ x, res[k]? = some x
            ∧ (∀ h ∈ range, ∃ y, (f h)[k]? = some y ∧ y ≤ x)
            ∧ (∃ h ∈ range, (f h)[k]? = some x))
    ∧ elem_wise_max 2 [0, 1, 2]
        (pure_call (fun (h : Nat) => [[1, 5], [3, 2], [0, 9]].getD h ([] : List Int))) ()
        = (Outcome.value [3, 9], ()) := by
  refine ⟨?_, by decide⟩
  intro H α σ _ N f range s hne hf
  cases range with
  | nil => exact absurd rfl hne
  | cons h0 rest =>
    obtain ⟨res, hres, -, -, hin⟩ := comb_loop_spec std_max N f rest (f h0) s
      (hf h0 (by simp)) (fun h hh => hf h (by simp [hh]))
    refine ⟨res, ?_, ?_⟩
    · simp only [elem_wise_max, pure_call, max_loop_eq_comb]
      exact hres
    · intro k hk
      obtain ⟨a, ha, hr⟩ := hin k hk
      obtain ⟨h1, h2, h3⟩ := foldl_std_max_spec (fun h => (f h).getD k a) rest a
      have hget : ∀ h ∈ rest, (f h)[k]? = some ((f h).getD k a) := by
        intro h hh
        have hlt : k < (f h).length := lt_of_lt_of_le hk (hf h (by simp [hh]))
        simp [List.getD_eq_getElem?_getD, List.getElem?_eq_getElem hlt]
      refine ⟨_, hr, ?_, ?_⟩
      · intro h hh
        rcases List.mem_cons.mp hh with rfl | hh
        · exact ⟨a, ha, h1⟩
        · exact ⟨_, hget h hh, h2 h hh⟩
      · rcases h3 with h3 | ⟨h, hh, h3⟩
        · exact ⟨h0, by simp, by rw [h3]; exact ha⟩
        · exact ⟨h, by simp [hh], by rw [h3]; exact hget h hh⟩

/-- C5, at a concrete input: three handles mapped to (1,5), (3,2), (0,9). -/
theorem elem_wise_max_is_componentwise_max_witness :
    ([0, 1, 2] : List Nat) ≠ []
    ∧ (∀ h ∈ [0, 1, 2], 2 ≤ ([[1, 5], [3, 2], [0, 9]].getD h ([] : List Int)).length)
    ∧ ∃ res, elem_wise_max 2 [0, 1, 2]
        (pure_call (fun (h : Nat) => [[1, 5], [3, 2], [0, 9]].getD h ([] : List Int))) ()
        = (Outcome.value res, ())
      ∧ ∀ k, k < 2 → ∃ x, res[k]? = some x
          ∧ (∀ h ∈ [0, 1, 2], ∃ y,
              ([[1, 5], [3, 2], [0, 9]].getD h ([] : List Int))[k]? = some y ∧ y ≤ x)
          ∧ (∃ h ∈ [0, 1, 2], ([[1, 5], [3, 2], [0, 9]].getD h ([] : List Int))[k]? = some x) :=
  ⟨by decide, by decide,
    elem_wise_max_is_componentwise_max.1 Nat Int Unit 2
      (fun (h : Nat) => [[1, 5], [3, 2], [0, 9]].getD h ([] : List Int)) [0, 1, 2] ()
      (by decide) (by decide)⟩

theorem to_array_loop_length {H R σ : Type} (n : Nat) (f : H → σ → R × σ) (it : List H)
    (i : Nat) (res : List (Option R)) (s : σ) :
    (to_array_loop n f it i res s).1.length = res.length := by
  induction it generalizing i res s with
  | nil => rfl
  | cons h t ih =>
    simp only [to_array_loop]
    split_ifs
    · rw [ih, List.length_set]
    · rfl

/-- The loop writes no slot before its start index `i` and no slot from
`i + |it|` on, whatever the functor does. -/
theorem to_array_loop_frame {H R σ : Type} (n : Nat) (f : H → σ → R × σ) (it : List H)
    (i : Nat) (res : List (Option R)) (s : σ) (j : Nat) (hj : j < i ∨ i + it.length ≤ j) :
    (to_array_loop n f it i res s).1[j]? = res[j]? := by
  induction it generalizing i res s with
  | nil => rfl
  | cons h t ih =>
    simp only [to_array_loop]
    simp only [List.length_cons] at hj
    split_ifs
    · rw [ih (i + 1) _ _ (by omega)]
      exact List.getElem?_set_ne (by omega)
    · rfl

/-- The loop only looks at the first `n - i` elements of what is left of the
range, whatever the functor does. -/
theorem to_array_loop_take {H R σ : Type} (n : Nat) (f : H → σ → R × σ) (it : List H)
    (i : Nat) (res : List (Option R)) (s : σ) :
    to_array_loop n f it i res s = to_array_loop n f (it.take (n - i)) i res s := by
  induction it generalizing i res s with
  | nil => simp
  | cons h t ih =>
    by_cases hi : i < n
    · have hk : n - i = (n - (i + 1)) + 1 := by omega
      rw [hk, List.take_succ_cons]
      simp only [to_array_loop, if_pos hi]
      exact ih _ _ _
    · have hk : n - i = 0 := by omega
      rw [hk, List.take_zero]
      simp [to_array_loop, hi]

/-- With a logging mapping function the loop appends exactly the first `n - i`
elements of what is left of the range to the log. -/
theorem to_array_loop_log {H R : Type} (n : Nat) (f : H → R) (it : List H)
    (i : Nat) (res : List (Option R)) (log : List H) :
    (to_array_loop n (logged_call f) it i res log).2 = log ++ it.take (n - i) := by
  induction it generalizing i res log with
  | nil => simp [to_array_loop]
  | cons h t ih =>
    by_cases hi : i < n
    · have hk : n - i = (n - (i + 1)) + 1 := by omega
      rw [hk, List.take_succ_cons]
      simp only [to_array_loop, if_pos hi, logged_call]
      have := ih (i + 1) (res.set i (some (f h))) (log ++ [h])
      simp only [logged_call] at this
      rw [this]
      simp
    · have hk : n - i = 0 := by omega
      rw [hk, List.take_zero]
      simp [to_array_loop, hi]

/-- Slot `j` with `i ≤ j < min n (i + |it|)` receives the mapped value of
element `j - i` of what is left of the range. -/
theorem to_array_loop_assigned {H R σ : Type} (n : Nat) (f : H → R) (it : List H)
    (i : Nat) (res : List (Option R)) (s : σ) (hres : n ≤ res.length)
    (j : Nat) (h1 : i ≤ j) (h2 : j < n) (h3 : j < i + it.length) :
    ∃ h, it[j - i]? = some h
      ∧ (to_array_loop n (pure_call f) it i res s).1[j]? = some (some (f h)) := by
  induction it generalizing i res with
  | nil => simp at h3; omega
  | cons h t ih =>
    simp only [List.length_cons] at h3
    have hi : i < n := by omega
    simp only [to_array_loop, if_pos hi, pure_call]
    by_cases hji : j = i
    · subst hji
      refine ⟨h, by simp, ?_⟩
      have := to_array_loop_frame n (pure_call f) t (j + 1) (res.set j (some (f h))) s j
        (by omega)
      simp only [pure_call] at this
      rw [this]
      exact List.getElem?_set_self (by omega)
    · obtain ⟨x, hx, hr⟩ := ih (i + 1) (res.set i (some (f h)))
        (by rw [List.length_set]; exact hres) (by omega) (by omega)
      refine ⟨x, ?_, ?_⟩
      · have hk : j - i = (j - (i + 1)) + 1 := by omega
        rw [hk, List.getElem?_cons_succ]
        exact hx
      · exact hr

/-- Every slot `j` with `i ≤ j < min n (i + |it|)` is assigned, whatever the
functor does. -/
theorem to_array_loop_assigned_any {H R σ : Type} (n : Nat) (f : H → σ → R × σ) (it : List H)
    (i : Nat) (res : List (Option R)) (s : σ) (hres : n ≤ res.length)
    (j : Nat) (h1 : i ≤ j) (h2 : j < n) (h3 : j < i + it.length) :
    ∃ v, (to_array_loop n f it i res s).1[j]? = some (some v) := by
  induction it generalizing i res s with
  | nil => simp at h3; omega
  | cons h t ih =>
    simp only [List.length_cons] at h3
    have hi : i < n := by omega
    simp only [to_array_loop, if_pos hi]
    by_cases hji : j = i
    · subst hji
      refine ⟨(f h s).1, ?_⟩
      rw [to_array_loop_frame n f t (j + 1) _ _ j (by omega)]
      exact List.getElem?_set_self (by omega)
    · exact ih (i + 1) _ _ (by rw [List.length_set]; exact hres) (by omega) (by omega)

/-- C6: `to_array<N>` returns exactly `N` slots, and slot `i` holds `f` of
element `i` of the range for every `i < min N |R|`.  A 2-element range with
`N = 5` fills the slots 0 and 1. -/
theorem to_array_defined_slots :
    (∀ (H R σ : Type) (N : Nat) (f : H → R) (range : List H) (s : σ),
      (to_array N range (pure_call f) s).1.length = N
      ∧ ∀ i, i < min N range.length →
          ∃ h, range[i]? = some h
            ∧ (to_array N range (pure_call f) s).1[i]? = some (some (f h)))
    ∧ (to_array 5 [7, 8] (pure_call (fun (h : Nat) => h + 1)) ()).1.length = 5
    ∧ (to_array 5 [7, 8] (pure_call (fun (h : Nat) => h + 1)) ()).1[0]? = some (some 8)
    ∧ (to_array 5 [7, 8] (pure_call (fun (h : Nat) => h + 1)) ()).1[1]? = some (some 9) := by
  refine ⟨?_, by decide, by decide, by decide⟩
  intro H R σ N f range s
  refine ⟨by simp [to_array, to_array_loop_length], ?_⟩
  intro i hi
  have h := to_array_loop_assigned N f range 0 (List.replicate N none) s (by simp) i
    (Nat.zero_le _) (lt_of_lt_of_le hi (min_le_left _ _))
    (by have := lt_of_lt_of_le hi (min_le_right _ _); omega)
  simpa [to_array] using h

/-- C6, at a concrete input: a 2-element range and `N = 5`, slot 1. -/
theorem to_array_defined_slots_witness :
    1 < min 5 [7, 8].length
    ∧ ∃ h, [7, 8][1]? = some h
        ∧ (to_array 5 [7, 8] (pure_call (fun (h : Nat) => h + 1)) ()).1[1]? = some (some (h + 1)) :=
  ⟨by decide,
    (to_array_defined_slots.1 Nat Nat Unit 5 (fun (h : Nat) => h + 1) [7, 8] ()).2 1
      (by decide)⟩

/-- C7: on a range with more than `N` elements `to_array<N>` returns, and does
to the functor state, exactly what it does on the first `N` elements alone;
two ranges with the same first `N` elements give the same result; and a logging
mapping function has been applied to the first `N` elements and to no other. -/
theorem to_array_ignores_remainder (H R σ : Type) (N : Nat) :
    (∀ (f : H → σ → R × σ) (range : List H) (s : σ), N < range.length →
      to_array N range f s = to_array N (range.take N) f s)
    ∧ (∀ (f : H → σ → R × σ) (range1 range2 : List H) (s : σ),
        range1.take N = range2.take N → to_array N range1 f s = to_array N range2 f s)
    ∧ (∀ (f : H → R) (range : List H) (log : List H), N < range.length →
        (to_array N range (logged_call f) log).2 = log ++ range.take N) := by
  have key : ∀ (f : H → σ → R × σ) (range : List H) (s : σ),
      to_array N range f s = to_array N (range.take N) f s := by
    intro f range s
    unfold to_array
    rw [to_array_loop_take]
    simp
  refine ⟨fun f range s _ => key f range s, ?_, ?_⟩
  · intro f range1 range2 s h
    rw [key f range1, key f range2, h]
  · intro f range log _
    simp [to_array, to_array_loop_log]

/-- C7, at a concrete input: a 4-element range and `N = 2`. -/
theorem to_array_ignores_remainder_witness :
    2 < [7, 8, 9, 10].length
    ∧ to_array 2 [7, 8, 9, 10] (pure_call (fun (h : Nat) => h + 1)) ()
        = to_array 2 ([7, 8, 9, 10].take 2) (pure_call (fun (h : Nat) => h + 1)) ()
    ∧ (to_array 2 [7, 8, 9, 10] (logged_call (fun (h : Nat) => h + 1)) []).2
        = [] ++ [7, 8, 9, 10].take 2 :=
  ⟨by decide,
    (to_array_ignores_remainder Nat Nat Unit 2).1 (pure_call (fun (h : Nat) => h + 1))
      [7, 8, 9, 10] () (by decide),
    (to_array_ignores_remainder Nat Nat Unit 2).2.2 (fun (h : Nat) => h + 1)
      [7, 8, 9, 10] [] (by decide)⟩

/-- C8: on a range with fewer than `N` elements, whatever the functor does,
`to_array<N>` assigns every slot below `|R|` and leaves every slot from `|R|`
up to `N` unassigned; on the empty range no slot is assigned and the functor
is not called. -/
theorem to_array_trailing_slots_unassigned (H R σ : Type) (N : Nat) (f : H → σ → R × σ) :
    (∀ (range : List H) (s : σ), range.length < N →
      (∀ j, range.length ≤ j → j < N → (to_array N range f s).1[j]? = some none)
      ∧ (∀ j, j < range.length → ∃ v, (to_array N range f s).1[j]? = some (some v)))
    ∧ (∀ s : σ, to_array N ([] : List H) f s = (List.replicate N none, s)) := by
  refine ⟨?_, fun s => rfl⟩
  intro range s hlen
  constructor
  · intro j hj1 hj2
    unfold to_array
    rw [to_array_loop_frame N f range 0 _ s j (by omega)]
    simp [hj2]
  · intro j hj
    exact to_array_loop_assigned_any N f range 0 _ s (by simp) j (Nat.zero_le _)
      (by omega) (by omega)

/-- C8, at a concrete input: a 2-element range and `N = 5`, slot 3. -/
theorem to_array_trailing_slots_unassigned_witness :
    [7, 8].length < 5 ∧ [7, 8].length ≤ 3 ∧ 3 < 5
    ∧ (to_array 5 [7, 8] (pure_call (fun (h : Nat) => h + 1)) ()).1[3]? = some none :=
  ⟨by decide, by decide, by decide,
    ((to_array_trailing_slots_unassigned Nat Nat Unit 5 (pure_call (fun (h : Nat) => h + 1))).1
      [7, 8] () (by decide)).1 3 (by decide) (by decide)⟩

theorem min_loop_ne_assert_failed {H α σ : Type} [LT α] [DecidableRel (α := α) (· < ·)]
    (n : Nat) (f : H → σ → List α × σ) (it : List H) (acc : List α) (s : σ) :
    (min_loop n f it acc s).1 ≠ Outcome.assert_failed := by
  induction it generalizing acc s with
  | nil => simp [min_loop]
  | cons h t ih =>
    simp only [min_loop]
    split
    · exact ih _ _
    · simp

theorem max_loop_ne_assert_failed {H α σ : Type} [LT α] [DecidableRel (α := α) (· < ·)]
    (n : Nat) (f : H → σ → List α × σ) (it : List H) (acc : List α) (s : σ) :
    (max_loop n f it acc s).1 ≠ Outcome.assert_failed := by
  induction it generalizing acc s with
  | nil => simp [max_loop]
  | cons h t ih =>
    simp only [max_loop]
    split
    · exact ih _ _
    · simp

/-- Whatever the functor does and whether an access goes out of bounds or not,
the outer loop applies the functor to every element left of the range, and it
ends with a value or after an out-of-bounds access. -/
theorem comb_loop_runs_through {H α σ : Type} (g : α → α → α) (n : Nat)
    (f : H → σ → List α × σ) (it : List H) (acc : List α) (s : σ) :
    (comb_loop g n f it acc s).2 = apply_rest f it s
    ∧ ((∃ v, (comb_loop g n f it acc s).1 = Outcome.value v)
        ∨ (comb_loop g n f it acc s).1 = Outcome.out_of_bounds) := by
  induction it generalizing acc s with
  | nil => exact ⟨rfl, Or.inl ⟨acc, rfl⟩⟩
  | cons h t ih =>
    simp only [comb_loop, apply_rest]
    split
    next acc1 _ => exact ih acc1 _
    next => exact ⟨rfl, Or.inr rfl⟩

/-- C9: each of `sum`, `avg`, `elem_wise_min<N>`, `elem_wise_max<N>` fails its
non-emptiness assertion exactly on the empty range, and there it fails with
the functor state untouched (the functor was applied to nothing).  On a
non-empty range the assertion holds and the operation runs to its `return`:
`sum` and `avg` return a value; `elem_wise_min<N>` and `elem_wise_max<N>` have
applied the functor to the whole range and end with a value, the value being
determined by the program when every mapped value has at least `N` components
(with fewer the source reads outside the mapped value). -/
theorem assertion_fails_iff_empty (H R A α σ : Type) [Add R] [HMul ℚ R A] [LinearOrder α]
    (N : Nat) :
    (∀ (f : H → σ → R × σ) (s : σ),
      sum [] f s = (Outcome.assert_failed, s)
      ∧ avg [] f s = ((Outcome.assert_failed : Outcome A), s))
    ∧ (∀ (g : H → σ → List α × σ) (s : σ),
      elem_wise_min N [] g s = (Outcome.assert_failed, s)
      ∧ elem_wise_max N [] g s = (Outcome.assert_failed, s))
    ∧ (∀ (f : H → σ → R × σ) (range : List H) (s : σ),
      ((sum range f s).1 = Outcome.assert_failed ↔ range = [])
      ∧ ((avg range f s).1 = (Outcome.assert_failed : Outcome A) ↔ range = []))
    ∧ (∀ (g : H → σ → List α × σ) (range : List H) (s : σ),
      ((elem_wise_min N range g s).1 = Outcome.assert_failed ↔ range = [])
      ∧ ((elem_wise_max N range g s).1 = Outcome.assert_failed ↔ range = []))
    ∧ (∀ (f : H → σ → R × σ) (range : List H) (s : σ), range ≠ [] →
      (∃ v, (sum range f s).1 = Outcome.value v)
      ∧ (∃ v : A, (avg range f s).1 = Outcome.value v))
    ∧ (∀ (g : H → σ → List α × σ) (range : List H) (s : σ), range ≠ [] →
      ((elem_wise_min N range g s).2 = apply_rest g range s
        ∧ ((∃ v, (elem_wise_min N range g s).1 = Outcome.value v)
            ∨ (elem_wise_min N range g s).1 = Outcome.out_of_bounds))
      ∧ ((elem_wise_max N range g s).2 = apply_rest g range s
        ∧ ((∃ v, (elem_wise_max N range g s).1 = Outcome.value v)
            ∨ (elem_wise_max N range g s).1 = Outcome.out_of_bounds)))
    ∧ (∀ (g : H → List α) (range : List H) (s : σ), range ≠ [] →
      (∀ h ∈ range, N ≤ (g h).length) →
      (∃ v, (elem_wise_min N range (pure_call g) s).1 = Outcome.value v)
      ∧ (∃ v, (elem_wise_max N range (pure_call g) s).1 = Outcome.value v)) := by
  refine ⟨fun f s => ⟨rfl, rfl⟩, fun g s => ⟨rfl, rfl⟩, ?_, ?_, ?_, ?_, ?_⟩
  · intro f range s
    cases range with
    | nil => simp [sum, avg]
    | cons h t => simp [sum, avg]
  · intro g range s
    cases range with
    | nil => simp [elem_wise_min, elem_wise_max]
    | cons h t =>
      simp only [elem_wise_min, elem_wise_max]
      exact ⟨⟨fun e => absurd e (min_loop_ne_assert_failed _ _ _ _ _), fun e => by cases e⟩,
        ⟨fun e => absurd e (max_loop_ne_assert_failed _ _ _ _ _), fun e => by cases e⟩⟩
  · intro f range s hne
    cases range with
    | nil => exact absurd rfl hne
    | cons h t => exact ⟨⟨_, rfl⟩, ⟨_, rfl⟩⟩
  · intro g range s hne
    cases range with
    | nil => exact absurd rfl hne
    | cons h0 rest =>
      simp only [elem_wise_min, elem_wise_max, apply_rest, min_loop_eq_comb,
        max_loop_eq_comb]
      exact ⟨comb_loop_runs_through std_min N g rest _ _,
        comb_loop_runs_through std_max N g rest _ _⟩
  · intro g range s hne hg
    cases range with
    | nil => exact absurd rfl hne
    | cons h0 rest =>
      obtain ⟨r1, e1, -⟩ := comb_loop_spec std_min N g rest (g h0) s
        (hg h0 (by simp)) (fun h hh => hg h (by simp [hh]))
      obtain ⟨r2, e2, -⟩ := comb_loop_spec std_max N g rest (g h0) s
        (hg h0 (by simp)) (fun h hh => hg h (by simp [hh]))
      constructor
      · refine ⟨r1, ?_⟩
        simp only [elem_wise_min, pure_call, min_loop_eq_comb]
        exact congrArg Prod.fst e1
      · refine ⟨r2, ?_⟩
        simp only [elem_wise_max, pure_call, max_loop_eq_comb]
        exact congrArg Prod.fst e2

/-- C9, at a concrete input: three handles mapped to 2-vectors. -/
theorem assertion_fails_iff_empty_witness :
    ([0, 1, 2] : List Nat) ≠ []
    ∧ (∀ h ∈ [0, 1, 2], 2 ≤ ([[1, 5], [3, 2], [0, 9]].getD h ([] : List Int)).length)
    ∧ (∃ v, (elem_wise_min 2 [0, 1, 2]
          (pure_call (fun (h : Nat) => [[1, 5], [3, 2], [0, 9]].getD h ([] : List Int))) ()).1
          = Outcome.value v)
    ∧ (∃ v, (elem_wise_max 2 [0, 1, 2]
          (pure_call (fun (h : Nat) => [[1, 5], [3, 2], [0, 9]].getD h ([] : List Int))) ()).1
          = Outcome.value v) :=
  ⟨by decide, by decide,
    (assertion_fails_iff_empty Nat ℚ ℚ Int Unit 2).2.2.2.2.2.2
      (fun (h : Nat) => [[1, 5], [3, 2], [0, 9]].getD h ([] : List Int)) [0, 1, 2] ()
      (by decide) (by decide)⟩

/-- C10: on a non-empty range whose mapped values all have at least `N`
components, no indexed access made by `elem_wise_min<N>` or `elem_wise_max<N>`
leaves its sequence: each run of an inner loop ends normally, the operations
do not end out of bounds but return a value, and that value has as many
components as the mapped value of the first element. -/
theorem elem_wise_accesses_in_bounds (H α σ : Type) [LinearOrder α] (N : Nat) :
    (∀ acc tmp : List α, N ≤ acc.length → N ≤ tmp.length →
      (∃ r, min_inner tmp N 0 acc = some r ∧ r.length = acc.length)
      ∧ (∃ r, max_inner tmp N 0 acc = some r ∧ r.length = acc.length))
    ∧ (∀ (f : H → List α) (h0 : H) (rest : List H) (s : σ),
      (∀ h ∈ h0 :: rest, N ≤ (f h).length) →
      (elem_wise_min N (h0 :: rest) (pure_call f) s).1 ≠ Outcome.out_of_bounds
      ∧ (elem_wise_max N (h0 :: rest) (pure_call f) s).1 ≠ Outcome.out_of_bounds
      ∧ (∃ r, elem_wise_min N (h0 :: rest) (pure_call f) s = (Outcome.value r, s)
          ∧ r.length = (f h0).length)
      ∧ (∃ r, elem_wise_max N (h0 :: rest) (pure_call f) s = (Outcome.value r, s)
          ∧ r.length = (f h0).length)) := by
  constructor
  · intro acc tmp ha ht
    obtain ⟨r1, e1, l1, -⟩ := comb_inner_spec std_min tmp N 0 acc (by omega) (by omega)
    obtain ⟨r2, e2, l2, -⟩ := comb_inner_spec std_max tmp N 0 acc (by omega) (by omega)
    exact ⟨⟨r1, by rw [min_inner_eq_comb]; exact e1, l1⟩,
      ⟨r2, by rw [max_inner_eq_comb]; exact e2, l2⟩⟩
  · intro f h0 rest s hf
    obtain ⟨r1, e1, l1, -⟩ := comb_loop_spec std_min N f rest (f h0) s
      (hf h0 (by simp)) (fun h hh => hf h (by simp [hh]))
    obtain ⟨r2, e2, l2, -⟩ := comb_loop_spec std_max N f rest (f h0) s
      (hf h0 (by simp)) (fun h hh => hf h (by simp [hh]))
    have m1 : elem_wise_min N (h0 :: rest) (pure_call f) s = (Outcome.value r1, s) := by
      simp only [elem_wise_min, pure_call, min_loop_eq_comb]
      exact e1
    have m2 : elem_wise_max N (h0 :: rest) (pure_call f) s = (Outcome.value r2, s) := by
      simp only [elem_wise_max, pure_call, max_loop_eq_comb]
      exact e2
    exact ⟨by simp [m1], by simp [m2], ⟨r1, m1, l1⟩, ⟨r2, m2, l2⟩⟩

/-- C10, at a concrete input: three handles mapped to 2-vectors, `N = 2`. -/
theorem elem_wise_accesses_in_bounds_witness :
    (∀ h ∈ [0, 1, 2], 2 ≤ ([[1, 5], [3, 2], [0, 9]].getD h ([] : List Int)).length)
    ∧ (elem_wise_min 2 [0, 1, 2]
        (pure_call (fun (h : Nat) => [[1, 5], [3, 2], [0, 9]].getD h ([] : List Int))) ()).1
        ≠ Outcome.out_of_bounds :=
  ⟨by decide,
    ((elem_wise_accesses_in_bounds Nat Int Unit 2).2
      (fun (h : Nat) => [[1, 5], [3, 2], [0, 9]].getD h ([] : List Int)) 0 [1, 2] ()
      (by decide)).1⟩

/-- C12: with the mapping function omitted, `to_vector()` returns the handles
of the range in iteration order, and slot `i` of `to_array<N>()` holds the
handle `R[i]` for every `i < min N |R|`; `Identity` returns its argument. -/
theorem default_functor_is_identity (H σ : Type) :
    (∀ h : H, Identity h = h)
    ∧ (∀ (range : List H) (s : σ), to_vector_default range s = (range, s))
    ∧ (∀ (N : Nat) (range : List H) (s : σ),
        (to_array_default N range s).1.length = N
        ∧ ∀ i, i < min N range.length →
            ∃ h, range[i]? = some h ∧ (to_array_default N range s).1[i]? = some (some h)) := by
  refine ⟨fun _ => rfl, ?_, ?_⟩
  · intro range s
    have : (List.map (Identity : H → H) range) = range := by
      induction range with
      | nil => rfl
      | cons h t ih => rw [List.map_cons, ih]; rfl
    simp [to_vector_default, to_vector, to_vector_loop_pure_call, this]
  · intro N range s
    refine ⟨by simp [to_array_default, to_array, to_array_loop_length], ?_⟩
    intro i hi
    have h := to_array_loop_assigned (σ := σ) N (Identity : H → H) range 0
      (List.replicate N none) s (by simp) i (Nat.zero_le _)
      (lt_of_lt_of_le hi (min_le_left _ _))
      (by have := lt_of_lt_of_le hi (min_le_right _ _); omega)
    simpa [to_array_default, to_array, Identity] using h

/-- C12, at a concrete input: a 2-element range, `N = 5`, slot 1. -/
theorem default_functor_is_identity_witness :
    1 < min 5 [7, 8].length
    ∧ ∃ h, [7, 8][1]? = some h
        ∧ (to_array_default 5 [7, 8] ()).1[1]? = some (some h) :=
  ⟨by decide, ((default_functor_is_identity Nat Unit).2.2 5 [7, 8] ()).2 1 (by decide)⟩

theorem sum_loop_logged {H R : Type} [Add R] (f : H → R) (it : List H) (acc : R)
    (log : List H) :
    sum_loop (logged_call f) it acc log = (it.foldl (fun a h => a + f h) acc, log ++ it) := by
  induction it generalizing acc log with
  | nil => simp [sum_loop]
  | cons h t ih => simp [sum_loop, logged_call, ih]

theorem avg_loop_logged {H R : Type} [Add R] (f : H → R) (it : List H) (acc : R)
    (k : Int) (log : List H) :
    avg_loop (logged_call f) it acc k log
      = ((it.foldl (fun a h => a + f h) acc, k + (it.length : Int)), log ++ it) := by
  induction it generalizing acc k log with
  | nil => simp [avg_loop]
  | cons h t ih =>
    simp only [avg_loop, logged_call, List.foldl_cons, List.length_cons] at ih ⊢
    rw [ih]
    simp only [Nat.cast_add, Nat.cast_one, Prod.mk.injEq, true_and, List.append_assoc,
      List.singleton_append, and_true]
    ring

theorem to_vector_loop_logged {H R : Type} (f : H → R) (it : List H) (res : List R)
    (log : List H) :
    to_vector_loop (logged_call f) it res log = (res ++ it.map f, log ++ it) := by
  induction it generalizing res log with
  | nil => simp [to_vector_loop]
  | cons h t ih => simp [to_vector_loop, logged_call, ih]

/-- Logging does not change what the loop of `to_array` returns. -/
theorem to_array_loop_logged_result {H R : Type} (n : Nat) (f : H → R) (it : List H)
    (i : Nat) (res : List (Option R)) (log : List H) :
    (to_array_loop n (logged_call f) it i res log).1
      = (to_array_loop n (pure_call f) it i res ()).1 := by
  induction it generalizing i res log with
  | nil => rfl
  | cons h t ih =>
    simp only [to_array_loop, pure_call, logged_call]
    split_ifs
    · exact ih _ _ _
    · rfl

theorem apply_rest_pure_call {H R σ : Type} (f : H → R) (it : List H) (s : σ) :
    apply_rest (pure_call f) it s = s := by
  induction it with
  | nil => rfl
  | cons h t ih => simpa [apply_rest, pure_call] using ih

theorem apply_rest_logged {H R : Type} (f : H → R) (it : List H) (log : List H) :
    apply_rest (logged_call f) it log = log ++ it := by
  induction it generalizing log with
  | nil => simp [apply_rest]
  | cons h t ih => simp [apply_rest, logged_call, ih]

/-- With a pure mapping function the outer loop hands the state back untouched
and its outcome does not depend on the state, whether it ends normally or not. -/
theorem comb_loop_pure_state {H α σ : Type} (g : α → α → α) (n : Nat) (f : H → List α)
    (it : List H) (acc : List α) (s : σ) :
    comb_loop g n (pure_call f) it acc s
      = ((comb_loop g n (pure_call f) it acc ()).1, s) := by
  induction it generalizing acc with
  | nil => rfl
  | cons h t ih =>
    simp only [comb_loop, pure_call]
    split
    · exact ih _
    · have e := apply_rest_pure_call (σ := σ) f t s
      simp only [pure_call] at e
      rw [e]

/-- With a logging mapping function the outer loop has the outcome it has
without logging and appends what is left of the range to the log, whether an
access goes out of bounds or not. -/
theorem comb_loop_logged {H α : Type} (g : α → α → α) (n : Nat) (f : H → List α)
    (it : List H) (acc : List α) (log : List H) :
    comb_loop g n (logged_call f) it acc log
      = ((comb_loop g n (pure_call f) it acc ()).1, log ++ it) := by
  induction it generalizing acc log with
  | nil => simp [comb_loop]
  | cons h t ih =>
    simp only [comb_loop, pure_call, logged_call]
    split
    next acc1 _ =>
      have e := ih acc1 (log ++ [h])
      simp only [pure_call, logged_call] at e
      rw [e]
      simp
    next =>
      have e := apply_rest_logged f t (log ++ [h])
      simp only [logged_call] at e
      rw [e]
      simp

/-- C13: with a mapping function that appends its argument to a log, the log
records each visited element exactly once, in iteration order, and the logging
changes no result.  On a non-empty range `sum`, `avg`, `elem_wise_min<N>` and
`elem_wise_max<N>` extend the log by the range; on every range `to_vector`
extends the log by the range and `to_array<N>` by its first `min N |R|`
elements.  Three handles mapped to the 2-vector (1,2) are all logged by
`elem_wise_min<3>`, which has no exit from its outer loop. -/
theorem functor_called_once_per_element :
    (∀ (H R A : Type) [Add R] [HMul ℚ R A] (f : H → R) (h0 : H) (rest log : List H),
      (sum (h0 :: rest) (logged_call f) log).2 = log ++ h0 :: rest
      ∧ (sum (h0 :: rest) (logged_call f) log).1 = (sum (h0 :: rest) (pure_call f) ()).1
      ∧ (avg (h0 :: rest) (logged_call f) log : Outcome A × List H).2 = log ++ h0 :: rest
      ∧ (avg (h0 :: rest) (logged_call f) log : Outcome A × List H).1
          = (avg (h0 :: rest) (pure_call f) ()).1)
    ∧ (∀ (H α : Type) [LT α] [DecidableRel (α := α) (· < ·)] (N : Nat) (g : H → List α)
        (h0 : H) (rest log : List H),
      (elem_wise_min N (h0 :: rest) (logged_call g) log).2 = log ++ h0 :: rest
      ∧ (elem_wise_min N (h0 :: rest) (logged_call g) log).1
          = (elem_wise_min N (h0 :: rest) (pure_call g) ()).1
      ∧ (elem_wise_max N (h0 :: rest) (logged_call g) log).2 = log ++ h0 :: rest
      ∧ (elem_wise_max N (h0 :: rest) (logged_call g) log).1
          = (elem_wise_max N (h0 :: rest) (pure_call g) ()).1)
    ∧ (∀ (H R : Type) (N : Nat) (f : H → R) (range log : List H),
      (to_vector range (logged_call f) log).2 = log ++ range
      ∧ (to_vector range (logged_call f) log).1 = (to_vector range (pure_call f) ()).1
      ∧ (to_array N range (logged_call f) log).2 = log ++ range.take (min N range.length)
      ∧ (to_array N range (logged_call f) log).1 = (to_array N range (pure_call f) ()).1)
    ∧ (sum [3, 1, 4, 1, 5] (logged_call (fun (h : Int) => h)) []).2 = [3, 1, 4, 1, 5]
    ∧ (elem_wise_min 2 [0, 1, 2]
        (logged_call (fun (h : Nat) => [[1, 5], [3, 2], [0, 9]].getD h ([] : List Int))) []).2
        = [0, 1, 2]
    ∧ (elem_wise_min 3 [0, 1, 2] (logged_call (fun (_ : Nat) => ([1, 2] : List Int))) []).2
        = [0, 1, 2]
    ∧ (to_array 2 [7, 8, 9] (logged_call (fun (h : Nat) => h + 1)) []).2 = [7, 8] := by
  refine ⟨?_, ?_, ?_, by decide, by decide, by decide, by decide⟩
  · intro H R A _ _ f h0 rest log
    have a1 := avg_loop_logged f rest (f h0) 1 (log ++ [h0])
    have a2 := avg_loop_pure_call f rest (f h0) 1 ()
    simp only [logged_call, pure_call] at a1 a2
    refine ⟨?_, ?_, ?_, ?_⟩
    · simp [sum, sum_loop_logged, logged_call]
    · simp [sum, sum_loop_logged, sum_loop_pure_call, logged_call, pure_call]
    · simp [avg, logged_call, a1]
    · simp [avg, logged_call, pure_call, a1, a2]
  · intro H α _ _ N g h0 rest log
    have e := comb_loop_logged std_min N g rest (g h0) (log ++ [h0])
    have e2 := comb_loop_logged std_max N g rest (g h0) (log ++ [h0])
    refine ⟨?_, ?_, ?_, ?_⟩
    · simp only [elem_wise_min, logged_call, min_loop_eq_comb]
      simpa using congrArg Prod.snd e
    · simp only [elem_wise_min, logged_call, pure_call, min_loop_eq_comb]
      exact congrArg Prod.fst e
    · simp only [elem_wise_max, logged_call, max_loop_eq_comb]
      simpa using congrArg Prod.snd e2
    · simp only [elem_wise_max, logged_call, pure_call, max_loop_eq_comb]
      exact congrArg Prod.fst e2
  · intro H R N f range log
    have ht : range.take (min N range.length) = range.take N := by
      rcases le_total N range.length with h | h
      · rw [min_eq_left h]
      · rw [min_eq_right h, List.take_length, List.take_of_length_le h]
    refine ⟨?_, ?_, ?_, ?_⟩
    · simp [to_vector, to_vector_loop_logged]
    · simp [to_vector, to_vector_loop_logged, to_vector_loop_pure_call]
    · rw [ht]
      simp [to_array, to_array_loop_log]
    · exact to_array_loop_logged_result N f range 0 _ log

/-- The value of `elem_wise_min<N>` on a pure mapping function whose values all
have at least `N` components: it does not depend on the functor state, it has
the length of the first mapped value and its components from `N` on, and
component `j < N` is `std_min` folded down column `j`. -/
theorem elem_wise_min_columns {H α : Type} [LinearOrder α] (N : Nat) (f : H → List α)
    (h0 : H) (rest : List H) (hf : ∀ h ∈ h0 :: rest, N ≤ (f h).length) :
    ∃ res, (∀ (σ : Type) (s : σ),
        elem_wise_min N (h0 :: rest) (pure_call f) s = (Outcome.value res, s))
      ∧ res.length = (f h0).length
      ∧ (∀ j, N ≤ j → res[j]? = (f h0)[j]?)
      ∧ (∀ j, j < N → ∃ a, (f h0)[j]? = some a
          ∧ res[j]? = some (rest.foldl (fun x h => std_min x ((f h).getD j a)) a)) := by
  obtain ⟨res, hres, hlen, hout, hin⟩ := comb_loop_spec std_min N f rest (f h0) ()
    (hf h0 (by simp)) (fun h hh => hf h (by simp [hh]))
  refine ⟨res, ?_, hlen, hout, hin⟩
  intro σ s
  simp only [elem_wise_min, pure_call, min_loop_eq_comb]
  have h := comb_loop_pure_state std_min N f rest (f h0) s
  simp only [pure_call] at h hres
  rw [h, hres]

/-- The value of `elem_wise_max<N>` on a pure mapping function whose values all
have at least `N` components, as for `elem_wise_min_columns`. -/
theorem elem_wise_max_columns {H α : Type} [LinearOrder α] (N : Nat) (f : H → List α)
    (h0 : H) (rest : List H) (hf : ∀ h ∈ h0 :: rest, N ≤ (f h).length) :
    ∃ res, (∀ (σ : Type) (s : σ),
        elem_wise_max N (h0 :: rest) (pure_call f) s = (Outcome.value res, s))
      ∧ res.length = (f h0).length
      ∧ (∀ j, N ≤ j → res[j]? = (f h0)[j]?)
      ∧ (∀ j, j < N → ∃ a, (f h0)[j]? = some a
          ∧ res[j]? = some (rest.foldl (fun x h => std_max x ((f h).getD j a)) a)) := by
  obtain ⟨res, hres, hlen, hout, hin⟩ := comb_loop_spec std_max N f rest (f h0) ()
    (hf h0 (by simp)) (fun h hh => hf h (by simp [hh]))
  refine ⟨res, ?_, hlen, hout, hin⟩
  intro σ s
  simp only [elem_wise_max, pure_call, max_loop_eq_comb]
  have h := comb_loop_pure_state std_max N f rest (f h0) s
  simp only [pure_call] at h hres
  rw [h, hres]

/-- An entry of column `k < N` exists in every mapped value of the range, so
the default of `getD` is never used. -/
theorem column_entry {H α : Type} (N : Nat) (f : H → List α) (range : List H)
    (hf : ∀ h ∈ range, N ≤ (f h).length) (k : Nat) (hk : k < N) (a : α) (h : H)
    (hh : h ∈ range) : (f h)[k]? = some ((f h).getD k a) := by
  have hlt : k < (f h).length := lt_of_lt_of_le hk (hf h hh)
  simp [List.getD_eq_getElem?_getD, List.getElem?_eq_getElem hlt]

/-- Component `k < N` of `elem_wise_min<N>` is a lower bound of column `k` and
an entry of it. -/
theorem elem_wise_min_glb {H α : Type} [LinearOrder α] (N : Nat) (f : H → List α)
    (h0 : H) (rest : List H) (hf : ∀ h ∈ h0 :: rest, N ≤ (f h).length) :
    ∃ res, (∀ (σ : Type) (s : σ),
        elem_wise_min N (h0 :: rest) (pure_call f) s = (Outcome.value res, s))
      ∧ ∀ k, k < N → ∃ x, res[k]? = some x
          ∧ (∀ h ∈ h0 :: rest, ∃ y, (f h)[k]? = some y ∧ x ≤ y)
          ∧ (∃ h ∈ h0 :: rest, (f h)[k]? = some x) := by
  obtain ⟨res, hres, -, -, hin⟩ := elem_wise_min_columns N f h0 rest hf
  refine ⟨res, hres, ?_⟩
  intro k hk
  obtain ⟨a, ha, hr⟩ := hin k hk
  obtain ⟨h1, h2, h3⟩ := foldl_std_min_spec (fun h => (f h).getD k a) rest a
  have hget := fun h hh => column_entry N f rest (fun x hx => hf x (by simp [hx])) k hk a h hh
  refine ⟨_, hr, ?_, ?_⟩
  · intro h hh
    rcases List.mem_cons.mp hh with rfl | hh
    · exact ⟨a, ha, h1⟩
    · exact ⟨_, hget h hh, h2 h hh⟩
  · rcases h3 with h3 | ⟨h, hh, h3⟩
    · exact ⟨h0, by simp, by rw [h3]; exact ha⟩
    · exact ⟨h, by simp [hh], by rw [h3]; exact hget h hh⟩

/-- Component `k < N` of `elem_wise_max<N>` is an upper bound of column `k` and
an entry of it. -/
theorem elem_wise_max_lub {H α : Type} [LinearOrder α] (N : Nat) (f : H → List α)
    (h0 : H) (rest : List H) (hf : ∀ h ∈ h0 :: rest, N ≤ (f h).length) :
    ∃ res, (∀ (σ : Type) (s : σ),
        elem_wise_max N (h0 :: rest) (pure_call f) s = (Outcome.value res, s))
      ∧ ∀ k, k < N → ∃ x, res[k]? = some x
          ∧ (∀ h ∈ h0 :: rest, ∃ y, (f h)[k]? = some y ∧ y ≤ x)
          ∧ (∃ h ∈ h0 :: rest, (f h)[k]? = some x) := by
  obtain ⟨res, hres, -, -, hin⟩ := elem_wise_max_columns N f h0 rest hf
  refine ⟨res, hres, ?_⟩
  intro k hk
  obtain ⟨a, ha, hr⟩ := hin k hk
  obtain ⟨h1, h2, h3⟩ := foldl_std_max_spec (fun h => (f h).getD k a) rest a
  have hget := fun h hh => column_entry N f rest (fun x hx => hf x (by simp [hx])) k hk a h hh
  refine ⟨_, hr, ?_, ?_⟩
  · intro h hh
    rcases List.mem_cons.mp hh with rfl | hh
    · exact ⟨a, ha, h1⟩
    · exact ⟨_, hget h hh, h2 h hh⟩
  · rcases h3 with h3 | ⟨h, hh, h3⟩
    · exact ⟨h0, by simp, by rw [h3]; exact ha⟩
    · exact ⟨h, by simp [hh], by rw [h3]; exact hget h hh⟩

/-- C15: on a non-empty range whose mapped values all have at least `N`
components over a linear order, for every `k < N` component `k` of
`elem_wise_min<N>` is at most component `k` of `elem_wise_max<N>`, and the
`k`-th component of every mapped value lies between the two. -/
theorem elem_wise_min_le_max (H α σ : Type) [LinearOrder α] (N : Nat) (f : H → List α)
    (range : List H) (s : σ) (hne : range ≠ []) (hf : ∀ h ∈ range, N ≤ (f h).length) :
    ∃ lo hi, elem_wise_min N range (pure_call f) s = (Outcome.value lo, s)
      ∧ elem_wise_max N range (pure_call f) s = (Outcome.value hi, s)
      ∧ ∀ k, k < N → ∃ a b, lo[k]? = some a ∧ hi[k]? = some b ∧ a ≤ b
          ∧ ∀ h ∈ range, ∃ y, (f h)[k]? = some y ∧ a ≤ y ∧ y ≤ b := by
  cases range with
  | nil => exact absurd rfl hne
  | cons h0 rest =>
    obtain ⟨lo, elo, hlo⟩ := elem_wise_min_glb N f h0 rest hf
    obtain ⟨hi, ehi, hhi⟩ := elem_wise_max_lub N f h0 rest hf
    refine ⟨lo, hi, elo σ s, ehi σ s, ?_⟩
    intro k hk
    obtain ⟨a, ha, hbelow, -⟩ := hlo k hk
    obtain ⟨b, hb, habove, -⟩ := hhi k hk
    have box : ∀ h ∈ h0 :: rest, ∃ y, (f h)[k]? = some y ∧ a ≤ y ∧ y ≤ b := by
      intro h hh
      obtain ⟨y, hy, h1⟩ := hbelow h hh
      obtain ⟨y2, hy2, h2⟩ := habove h hh
      rw [hy] at hy2
      cases hy2
      exact ⟨y, hy, h1, h2⟩
    obtain ⟨y, -, h1, h2⟩ := box h0 (by simp)
    exact ⟨a, b, ha, hb, h1.trans h2, box⟩

/-- C15, at a concrete input: three handles mapped to (1,5), (3,2), (0,9). -/
theorem elem_wise_min_le_max_witness :
    ([0, 1, 2] : List Nat) ≠ []
    ∧ (∀ h ∈ [0, 1, 2], 2 ≤ ([[1, 5], [3, 2], [0, 9]].getD h ([] : List Int)).length)
    ∧ ∃ lo hi,
        elem_wise_min 2 [0, 1, 2]
          (pure_call (fun (h : Nat) => [[1, 5], [3, 2], [0, 9]].getD h ([] : List Int))) ()
          = (Outcome.value lo, ())
        ∧ elem_wise_max 2 [0, 1, 2]
          (pure_call (fun (h : Nat) => [[1, 5], [3, 2], [0, 9]].getD h ([] : List Int))) ()
          = (Outcome.value hi, ())
        ∧ ∀ k, k < 2 → ∃ a b, lo[k]? = some a ∧ hi[k]? = some b ∧ a ≤ b
            ∧ ∀ h ∈ [0, 1, 2], ∃ y,
                ([[1, 5], [3, 2], [0, 9]].getD h ([] : List Int))[k]? = some y
                  ∧ a ≤ y ∧ y ≤ b :=
  ⟨by decide, by decide,
    elem_wise_min_le_max Nat Int Unit 2
      (fun (h : Nat) => [[1, 5], [3, 2], [0, 9]].getD h ([] : List Int)) [0, 1, 2] ()
      (by decide) (by decide)⟩

/-- C16: for two non-empty ranges that are permutations of each other and a
mapping function whose values all have at least `N` components over a linear
order, the values `elem_wise_min<N>` returns on the two ranges both have a
component `k` for every `k < N`, and it is the same; likewise for
`elem_wise_max<N>`. -/
theorem elem_wise_perm_invariant (H α σ : Type) [LinearOrder α] (N : Nat) (f : H → List α)
    (range1 range2 : List H) (s : σ) (hne : range1 ≠ []) (hperm : range1.Perm range2)
    (hf : ∀ h ∈ range1, N ≤ (f h).length) :
    (∃ v1 v2, elem_wise_min N range1 (pure_call f) s = (Outcome.value v1, s)
      ∧ elem_wise_min N range2 (pure_call f) s = (Outcome.value v2, s)
      ∧ ∀ k, k < N → ∃ x, v1[k]? = some x ∧ v2[k]? = some x)
    ∧ (∃ v1 v2, elem_wise_max N range1 (pure_call f) s = (Outcome.value v1, s)
      ∧ elem_wise_max N range2 (pure_call f) s = (Outcome.value v2, s)
      ∧ ∀ k, k < N → ∃ x, v1[k]? = some x ∧ v2[k]? = some x) := by
  have hmem : ∀ h, h ∈ range1 ↔ h ∈ range2 := fun h => hperm.mem_iff
  cases range1 with
  | nil => exact absurd rfl hne
  | cons a1 r1 =>
    cases range2 with
    | nil => exact absurd hperm.length_eq (by simp)
    | cons a2 r2 =>
      have hf2 : ∀ h ∈ a2 :: r2, N ≤ (f h).length := fun h hh => hf h ((hmem h).mpr hh)
      constructor
      · obtain ⟨v1, e1, p1⟩ := elem_wise_min_glb N f a1 r1 hf
        obtain ⟨v2, e2, p2⟩ := elem_wise_min_glb N f a2 r2 hf2
        refine ⟨v1, v2, e1 σ s, e2 σ s, ?_⟩
        intro k hk
        obtain ⟨x1, hx1, lb1, ⟨w1, hw1, at1⟩⟩ := p1 k hk
        obtain ⟨x2, hx2, lb2, ⟨w2, hw2, at2⟩⟩ := p2 k hk
        have h12 : x1 ≤ x2 := by
          obtain ⟨y, hy, hle⟩ := lb1 w2 ((hmem w2).mpr hw2)
          rw [at2] at hy
          cases hy
          exact hle
        have h21 : x2 ≤ x1 := by
          obtain ⟨y, hy, hle⟩ := lb2 w1 ((hmem w1).mp hw1)
          rw [at1] at hy
          cases hy
          exact hle
        exact ⟨x1, hx1, by rw [hx2, le_antisymm h12 h21]⟩
      · obtain ⟨v1, e1, p1⟩ := elem_wise_max_lub N f a1 r1 hf
        obtain ⟨v2, e2, p2⟩ := elem_wise_max_lub N f a2 r2 hf2
        refine ⟨v1, v2, e1 σ s, e2 σ s, ?_⟩
        intro k hk
        obtain ⟨x1, hx1, ub1, ⟨w1, hw1, at1⟩⟩ := p1 k hk
        obtain ⟨x2, hx2, ub2, ⟨w2, hw2, at2⟩⟩ := p2 k hk
        have h21 : x2 ≤ x1 := by
          obtain ⟨y, hy, hle⟩ := ub1 w2 ((hmem w2).mpr hw2)
          rw [at2] at hy
          cases hy
          exact hle
        have h12 : x1 ≤ x2 := by
          obtain ⟨y, hy, hle⟩ := ub2 w1 ((hmem w1).mp hw1)
          rw [at1] at hy
          cases hy
          exact hle
        exact ⟨x1, hx1, by rw [hx2, le_antisymm h12 h21]⟩

/-- C16, at a concrete input: the handles of (1,5), (3,2), (0,9) in two
orders; both orders give (0,2) and (3,9). -/
theorem elem_wise_perm_invariant_witness :
    ([0, 1, 2] : List Nat) ≠ []
    ∧ ([0, 1, 2] : List Nat).Perm [2, 0, 1]
    ∧ (∀ h ∈ [0, 1, 2], 2 ≤ ([[1, 5], [3, 2], [0, 9]].getD h ([] : List Int)).length)
    ∧ (∃ v1 v2,
        elem_wise_min 2 [0, 1, 2]
          (pure_call (fun (h : Nat) => [[1, 5], [3, 2], [0, 9]].getD h ([] : List Int))) ()
          = (Outcome.value v1, ())
        ∧ elem_wise_min 2 [2, 0, 1]
          (pure_call (fun (h : Nat) => [[1, 5], [3, 2], [0, 9]].getD h ([] : List Int))) ()
          = (Outcome.value v2, ())
        ∧ ∀ k, k < 2 → ∃ x, v1[k]? = some x ∧ v2[k]? = some x)
    ∧ elem_wise_min 2 [2, 0, 1]
        (pure_call (fun (h : Nat) => [[1, 5], [3, 2], [0, 9]].getD h ([] : List Int))) ()
        = (Outcome.value [0, 2], ())
    ∧ elem_wise_max 2 [2, 0, 1]
        (pure_call (fun (h : Nat) => [[1, 5], [3, 2], [0, 9]].getD h ([] : List Int))) ()
        = (Outcome.value [3, 9], ()) :=
  ⟨by decide, by decide, by decide,
    (elem_wise_perm_invariant Nat Int Unit 2
      (fun (h : Nat) => [[1, 5], [3, 2], [0, 9]].getD h ([] : List Int)) [0, 1, 2] [2, 0, 1] ()
      (by decide) (by decide) (by decide)).1,
    by decide, by decide⟩

/-- C17: on a non-empty range `h0 :: rest` whose mapped values all have `M ≥ N`
components, every component `k` with `N ≤ k < M` of `elem_wise_min<N>` and of
`elem_wise_max<N>` is component `k` of the mapped value of the first element.
With `N = 1`, the 2-vectors (1,5), (3,2), (0,9) give (0,5) and (3,5). -/
theorem elem_wise_tail_from_first :
    (∀ (H α σ : Type) [LinearOrder α] (N M : Nat) (f : H → List α) (h0 : H) (rest : List H)
      (s : σ), N ≤ M → (∀ h ∈ h0 :: rest, (f h).length = M) →
      ∃ lo hi, elem_wise_min N (h0 :: rest) (pure_call f) s = (Outcome.value lo, s)
        ∧ elem_wise_max N (h0 :: rest) (pure_call f) s = (Outcome.value hi, s)
        ∧ lo.length = M ∧ hi.length = M
        ∧ ∀ k, N ≤ k → k < M →
            ∃ x, (f h0)[k]? = some x ∧ lo[k]? = some x ∧ hi[k]? = some x)
    ∧ elem_wise_min 1 [0, 1, 2]
        (pure_call (fun (h : Nat) => [[1, 5], [3, 2], [0, 9]].getD h ([] : List Int))) ()
        = (Outcome.value [0, 5], ())
    ∧ elem_wise_max 1 [0, 1, 2]
        (pure_call (fun (h : Nat) => [[1, 5], [3, 2], [0, 9]].getD h ([] : List Int))) ()
        = (Outcome.value [3, 5], ()) := by
  refine ⟨?_, by decide, by decide⟩
  intro H α σ _ N M f h0 rest s hNM hM
  have hf : ∀ h ∈ h0 :: rest, N ≤ (f h).length := fun h hh => by rw [hM h hh]; exact hNM
  have h0M : (f h0).length = M := hM h0 (by simp)
  obtain ⟨lo, elo, llo, tlo, -⟩ := elem_wise_min_columns N f h0 rest hf
  obtain ⟨hi, ehi, lhi, thi, -⟩ := elem_wise_max_columns N f h0 rest hf
  refine ⟨lo, hi, elo σ s, ehi σ s, by omega, by omega, ?_⟩
  intro k hk1 hk2
  have hk : k < (f h0).length := by omega
  exact ⟨(f h0)[k], List.getElem?_eq_getElem hk,
    by rw [tlo k hk1]; exact List.getElem?_eq_getElem hk,
    by rw [thi k hk1]; exact List.getElem?_eq_getElem hk⟩

/-- C17, at a concrete input: three handles mapped to 2-vectors, `N = 1`,
component 1. -/
theorem elem_wise_tail_from_first_witness :
    1 ≤ 2
    ∧ (∀ h ∈ [0, 1, 2], ([[1, 5], [3, 2], [0, 9]].getD h ([] : List Int)).length = 2)
    ∧ ∃ lo hi,
        elem_wise_min 1 [0, 1, 2]
          (pure_call (fun (h : Nat) => [[1, 5], [3, 2], [0, 9]].getD h ([] : List Int))) ()
          = (Outcome.value lo, ())
        ∧ elem_wise_max 1 [0, 1, 2]
          (pure_call (fun (h : Nat) => [[1, 5], [3, 2], [0, 9]].getD h ([] : List Int))) ()
          = (Outcome.value hi, ())
        ∧ lo.length = 2 ∧ hi.length = 2
        ∧ ∀ k, 1 ≤ k → k < 2 →
            ∃ x, ([[1, 5], [3, 2], [0, 9]].getD 0 ([] : List Int))[k]? = some x
              ∧ lo[k]? = some x ∧ hi[k]? = some x :=
  ⟨by decide, by decide,
    elem_wise_tail_from_first.1 Nat Int Unit 1 2
      (fun (h : Nat) => [[1, 5], [3, 2], [0, 9]].getD h ([] : List Int)) 0 [1, 2] ()
      (by decide) (by decide)⟩

/-- C18: on a single-element range `[h]`, whatever the functor, the order
relation and `N`, `elem_wise_min<N>` and `elem_wise_max<N>` call the functor
once and return its value as it is, without any indexed access: they return
it even when it has fewer than `N` components, where a single run of an inner
loop would end out of bounds; and `sum` returns the value of the one call
whatever the addition is. -/
theorem single_element_returns_mapped_value :
    (∀ (H α σ : Type) [LT α] [DecidableRel (α := α) (· < ·)] (N : Nat)
      (f : H → σ → List α × σ) (h : H) (s : σ),
      elem_wise_min N [h] f s = (Outcome.value (f h s).1, (f h s).2)
      ∧ elem_wise_max N [h] f s = (Outcome.value (f h s).1, (f h s).2))
    ∧ (∀ (H α σ : Type) [LT α] [DecidableRel (α := α) (· < ·)] (N : Nat)
      (f : H → List α) (h : H) (s : σ),
      elem_wise_min N [h] (pure_call f) s = (Outcome.value (f h), s)
      ∧ elem_wise_max N [h] (pure_call f) s = (Outcome.value (f h), s))
    ∧ (∀ (α : Type) [LT α] [DecidableRel (α := α) (· < ·)] (N : Nat) (tmp : List α),
      min_inner tmp (N + 1) 0 [] = none ∧ max_inner tmp (N + 1) 0 [] = none)
    ∧ elem_wise_min 3 [0] (pure_call (fun (_ : Nat) => ([1, 2] : List Int))) ()
        = (Outcome.value [1, 2], ())
    ∧ elem_wise_max 3 [0] (pure_call (fun (_ : Nat) => ([1, 2] : List Int))) ()
        = (Outcome.value [1, 2], ())
    ∧ (∀ (H R σ : Type) [Add R] (f : H → σ → R × σ) (h : H) (s : σ),
      sum [h] f s = (Outcome.value (f h s).1, (f h s).2))
    ∧ (∀ (H R σ : Type) [Add R] (f : H → R) (h : H) (s : σ),
      sum [h] (pure_call f) s = (Outcome.value (f h), s))
    ∧ @sum Nat (Option Nat) Unit ⟨fun _ _ => none⟩ [7] (pure_call (fun h => some h)) ()
        = (Outcome.value (some 7), ()) := by
  refine ⟨?_, ?_, ?_, by decide, by decide, ?_, ?_, rfl⟩
  · intro H α σ _ _ N f h s
    exact ⟨rfl, rfl⟩
  · intro H α σ _ _ N f h s
    exact ⟨rfl, rfl⟩
  · intro α _ _ N tmp
    exact ⟨by simp [min_inner], by simp [max_inner]⟩
  · intro H R σ _ f h s
    rfl
  · intro H R σ _ f h s
    rfl

end OpenMesh
